import Mathlib

/-!
Verification development for the `tween` library (`src/lib.rs`, `src/ease.rs`).

The tween composition engine is embedded shallowly:

* Time values and animated values are exact rationals (`ℚ`).  The source
  operates on `f64`; all scenarios treated here stay within exactly
  representable dyadic rationals, where `f64` arithmetic agrees with `ℚ`
  arithmetic.  The one place where non-finite `f64` values matter — the
  `elapsed/duration` division of `Single::update` at `duration = 0` — is
  modelled separately by `SingleF`, a copy of `Single::update` over
  `FF := Option ℚ` in which `none` stands for a non-finite float
  (NaN or an infinity).
* `Repeat::remaining` returns `f64::INFINITY`; remaining times are therefore
  modelled by `RTime`, rationals extended with an `inf` point.
* The tween tree (`Single`, `Multi`, `Sequence`, `Parallel`, `Pause`, `Exec`,
  `Repeat`, `Reverse`) is the mutual inductive `TNode`/`TList`, mirroring the
  boxed trait-object vectors of the source.
* The externally owned state reachable through `Access` handles is `World`:
  one animated cell (`val`, the `&Cell<f64>` the leaf tweens write through)
  plus a counter `execCount` incremented by the `Exec` callback, which makes
  callback firings observable (the spec itself suggests wiring an external
  counter through `Exec`).
* `Sequence::update`, `Repeat::update` contain `while` loops that do not
  terminate for some inputs, so the interpreter `updateT` is indexed by fuel
  and returns `none` when fuel is exhausted or when the source would panic
  (out-of-bounds index in `Multi::update`, `unwrap` of a failed comparison).
  All theorems about terminating runs quantify over the fuel.
* The easing catalog of `src/ease.rs` is embedded over `ℝ` (the claims about
  it are stated "exactly under real arithmetic"); each family's overridden
  `ease_in`/`ease_out`/`ease_in_out` is translated directly.
-/

/-- The `ease::Mode` enum from `src/ease.rs`: selects the `in`/`out`/`in_out` variant. -/
inductive Mode where
  | In : Mode
  | Out : Mode
  | InOut : Mode

/-- The externally owned mutable state the engine touches through its
`Access` handles: the animated value cell, plus a counter incremented by the
`Exec` callback so that callback firings are observable. -/
structure World where
  val : ℚ
  execCount : Nat

/-- Remaining time as reported by `Tween::remaining`: a finite `f64` modelled
as a rational, or `f64::INFINITY` (returned by `Repeat::remaining`). -/
inductive RTime where
  | fin : ℚ → RTime
  | inf : RTime
deriving DecidableEq

/-- Addition of remaining times (`Sequence::remaining` folds `+` over the
children); `f64` addition sends `INFINITY + x` to `INFINITY`. -/
def RTime.add : RTime → RTime → RTime
  | RTime.fin a, RTime.fin b => RTime.fin (a + b)
  | _, _ => RTime.inf

/-- The comparison `remaining <= 0.0` used by the default `Tween::done`;
`INFINITY <= 0.0` is false. -/
def RTime.nonpos : RTime → Bool
  | RTime.fin a => decide (a ≤ 0)
  | RTime.inf => false

/-- The comparison `remain > max_remain` in `Parallel::update`;
`INFINITY > x` is true for finite `x` and `INFINITY > INFINITY` is false. -/
def RTime.ltR : RTime → RTime → Bool
  | RTime.fin a, RTime.fin b => decide (a < b)
  | RTime.fin _, RTime.inf => true
  | RTime.inf, _ => false

/-- Maximum of two remaining times, as `f64` max behaves on `INFINITY`. -/
def RTime.maxR : RTime → RTime → RTime
  | RTime.fin a, RTime.fin b => RTime.fin (max a b)
  | _, _ => RTime.inf

/-- The call `cmp::partial_min(remaining, delta)` as used by `Parallel::update` to clamp
the delta fed to a child: the minimum when `remaining` is finite, `delta`
itself when `remaining = INFINITY`. -/
def RTime.minD : RTime → ℚ → ℚ
  | RTime.fin a, d => min a d
  | RTime.inf, d => d

/-- Non-negativity of a remaining time (`INFINITY` counts as non-negative). -/
def RTime.nonneg : RTime → Prop
  | RTime.fin a => 0 ≤ a
  | RTime.inf => True

mutual
/-- The tween tree of `src/lib.rs`.  Each constructor carries exactly the
fields of the corresponding struct; boxed trait objects become child `TNode`s,
`Vec<Box<Tween>>` becomes `TList`.  `Single` and `Multi` are generic over an
easing `E: Ease`; here the easing is carried as a function
`Mode → ℚ → ℚ` (`ease.ease(mode, t)`). -/
inductive TNode where
  /-- Struct `Single { acc, start, end, current, duration, ease, mode }`; the `acc`
  handle is the `World.val` cell. -/
  | Single (start endv : ℚ) (current : ℚ) (duration : ℚ) (mode : Mode)
      (ease : Mode → ℚ → ℚ) : TNode
  /-- Struct `Multi { acc, ease, data, current, current_time }`; `data` is the list of
  keyframe segments `(start, end, duration, mode)`. -/
  | Multi (data : List (ℚ × ℚ × ℚ × Mode)) (current : Nat) (current_time : ℚ)
      (ease : Mode → ℚ → ℚ) : TNode
  /-- Struct `Sequence { tweens, current }`. -/
  | Sequence (tweens : TList) (current : Nat) : TNode
  /-- Struct `Parallel { tweens }`. -/
  | Parallel (tweens : TList) : TNode
  /-- Struct `Pause { duration, current }`. -/
  | Pause (duration : ℚ) (current : ℚ) : TNode
  /-- Struct `Exec { content, executed }`; the callback `content` is fixed to
  "increment `World.execCount`", making its firings observable. -/
  | Exec (executed : Bool) : TNode
  /-- Struct `Repeat { tween }`. -/
  | Repeat (tween : TNode) : TNode
  /-- Struct `Reverse { tween, current, duration }`. -/
  | Reverse (tween : TNode) (current : ℚ) (duration : ℚ) : TNode

/-- A `Vec<Box<Tween>>`: a list of owned child tweens. -/
inductive TList where
  | nil : TList
  | cons (t : TNode) (ts : TList) : TList
end

/-- Length of a child vector. -/
def TList.length : TList → Nat
  | TList.nil => 0
  | TList.cons _ ts => ts.length + 1

/-- Indexing `self.tweens[i]`, `none` when out of bounds (a Rust panic). -/
def TList.getq : TList → Nat → Option TNode
  | TList.nil, _ => none
  | TList.cons t _, 0 => some t
  | TList.cons _ ts, n + 1 => ts.getq n

/-- In-place mutation `self.tweens[i] = t` (via `get_mut`). -/
def TList.setq : TList → Nat → TNode → TList
  | TList.nil, _, _ => TList.nil
  | TList.cons _ ts, 0, t => TList.cons t ts
  | TList.cons t0 ts, n + 1, t => TList.cons t0 (ts.setq n t)

/-- View a `TList` as a `List` for stating membership/`Forall₂` properties. -/
def TList.toList : TList → List TNode
  | TList.nil => []
  | TList.cons t ts => t :: ts.toList

/-- The `LinearEase` of `src/ease.rs` restricted to rational inputs: all three
variants are overridden to the identity, so `ease(mode, t) = t`. -/
def linE : Mode → ℚ → ℚ := fun _ t => t

/-- Sum of the durations of a keyframe-segment list: the fold
`data.iter().skip(current).map(dur).fold(0, +)` in `Multi::remaining`. -/
def sumDurs : List (ℚ × ℚ × ℚ × Mode) → ℚ
  | [] => 0
  | (_, _, dur, _) :: rest => dur + sumDurs rest

mutual
/-- Method `Tween::remaining` for every node kind:
`Single`/`Pause`/`Reverse` return `duration - current`, `Exec` returns `0.`,
`Multi` returns the suffix duration sum minus `current_time`, `Sequence`
folds `+` over all children, `Parallel` takes the maximum via
`partial_max_by`, and `Repeat` returns `INFINITY`. -/
def remainingT : TNode → RTime
  | TNode.Single _ _ c d _ _ => RTime.fin (d - c)
  | TNode.Multi data cur ct _ => RTime.fin (sumDurs (List.drop cur data) - ct)
  | TNode.Sequence ts _ => sumRemaining ts
  | TNode.Parallel ts => maxRemaining ts
  | TNode.Pause d c => RTime.fin (d - c)
  | TNode.Exec _ => RTime.fin 0
  | TNode.Repeat _ => RTime.inf
  | TNode.Reverse _ c d => RTime.fin (d - c)

/-- The fold `iter().fold(0., |a, b| a + b.remaining())` in
`Sequence::remaining`. -/
def sumRemaining : TList → RTime
  | TList.nil => RTime.fin 0
  | TList.cons t ts => RTime.add (remainingT t) (sumRemaining ts)

/-- Modelled from the spec: `Parallel::remaining` calls
`partial_max_by(|a| a.remaining()).unwrap().remaining()` from the
`partial_iter` module, whose source file is not part of the sources at hand;
per the spec, `remaining()` of `Parallel` is "the maximum remaining among
children", embedded as a fold of the maximum.  On an empty child vector the
source `unwrap()` panics; the value `0` returned here for `nil` stands in and
is never relied upon by a theorem. -/
def maxRemaining : TList → RTime
  | TList.nil => RTime.fin 0
  | TList.cons t TList.nil => remainingT t
  | TList.cons t ts => RTime.maxR (remainingT t) (maxRemaining ts)
end

/-- Method `Tween::done`: the default is `remaining() <= 0.0`; `Exec` overrides it to
return its `executed` flag. -/
def doneT : TNode → Bool
  | TNode.Exec ex => ex
  | t => (remainingT t).nonpos

mutual
/-- Method `Tween::reset` for every node kind: `Single`/`Pause` zero their elapsed
time, `Exec` clears `executed`, `Multi` zeroes index and time, `Sequence`
zeroes its index and resets every child, `Parallel` resets every child,
`Repeat` resets its child, and `Reverse` zeroes only its own `current`
(the child is left untouched). -/
def resetT : TNode → TNode
  | TNode.Single s e _ d m ef => TNode.Single s e 0 d m ef
  | TNode.Multi data _ _ ef => TNode.Multi data 0 0 ef
  | TNode.Sequence ts _ => TNode.Sequence (resetL ts) 0
  | TNode.Parallel ts => TNode.Parallel (resetL ts)
  | TNode.Pause d _ => TNode.Pause d 0
  | TNode.Exec _ => TNode.Exec false
  | TNode.Repeat t => TNode.Repeat (resetT t)
  | TNode.Reverse t _ d => TNode.Reverse t 0 d

/-- Reset every tween of a child vector. -/
def resetL : TList → TList
  | TList.nil => TList.nil
  | TList.cons t ts => TList.cons (resetT t) (resetL ts)
end

/-- The segment-wrap loop of `Multi::update` (`src/lib.rs` lines 250-258):

`loop { let (_,_,dur,_) = self.data[self.current];
        if self.current_time - dur > 0. { self.current_time -= dur;
                                          self.current += 1; }
        else { break; } }`

`none` models the out-of-bounds panic of `self.data[self.current]`. -/
def multiWrap (data : List (ℚ × ℚ × ℚ × Mode)) (cur : Nat) (ct : ℚ) :
    Option (Nat × ℚ) :=
  if hlt : cur < data.length then
    let dur := (data.get ⟨cur, hlt⟩).2.2.1
    if 0 < ct - dur then
      multiWrap data (cur + 1) (ct - dur)
    else
      some (cur, ct)
  else none
termination_by data.length - cur
decreasing_by omega

mutual
/-- Method `Tween::update` for every node kind, with fuel.  Here `none` means the fuel ran
out or the source panicked.  Each branch mirrors the corresponding `update`
of `src/lib.rs`:

* `Single` (lines 195-204): computes `t = current/duration`,
  `a = ease(mode, t)`, writes `lerp(start, end, a) = start + (end-start)*a`
  through the handle, then advances `current` by
  `partial_min(remaining, delta)` and returns `-remaining_before`.
  (Exact-rational caveat: `current/duration` at `duration = 0` is `0` in `ℚ`
  where `f64` gives NaN; that case is treated faithfully by `SingleF` below.)
* `Multi` (lines 244-265): adds `delta` to `current_time`, runs the wrap loop,
  then writes the interpolated value of the now-current segment and returns
  `delta` unchanged.
* `Sequence` (lines 302-311): the `while` loop `seqLoop`.
* `Parallel` (lines 347-355): the `for` loop `parGo`; the source returns the
  `f64` `max_remain - delta`, which is only representable when `max_remain`
  is finite — an infinite-remaining child (`Repeat`) inside a `Parallel`
  is outside this rational model and yields `none`; no theorem relies on it.
* `Pause` (lines 384-388): advances by `partial_min(remaining, delta)` and
  returns `-remaining_before`.
* `Exec` (lines 413-417): runs the callback (increments `World.execCount`),
  sets `executed`, and returns `delta` unchanged — with no guard on
  `executed`.
* `Repeat` (lines 446-458): the `while` loop `repLoop`, then returns `0.`.
* `Reverse` (lines 495-497): feeds `-delta` to the child and returns the
  child's return value; its own `current`/`duration` are untouched. -/
def updateT : Nat → TNode → ℚ → World → Option (TNode × World × ℚ)
  | 0, _, _, _ => none
  | Nat.succ _, TNode.Single s e c d m ef, δ, w =>
    some (TNode.Single s e (c + min (d - c) δ) d m ef,
          { w with val := s + (e - s) * ef m (c / d) }, -(d - c))
  | Nat.succ _, TNode.Multi data cur ct ef, δ, w =>
    match multiWrap data cur (ct + δ) with
    | none => none
    | some (cur2, ct2) =>
      match data.get? cur2 with
      | none => none
      | some (s, e, dur, m) =>
        some (TNode.Multi data cur2 ct2 ef,
              { w with val := s + (e - s) * ef m (ct2 / dur) }, δ)
  | Nat.succ fuel, TNode.Sequence ts i, δ, w => seqLoop fuel ts i δ w
  | Nat.succ fuel, TNode.Parallel ts, δ, w =>
    match parGo fuel ts δ w (RTime.fin 0) with
    | none => none
    | some (ts2, w2, RTime.fin m) => some (TNode.Parallel ts2, w2, m - δ)
    | some (_, _, RTime.inf) => none
  | Nat.succ _, TNode.Pause d c, δ, w =>
    some (TNode.Pause d (c + min (d - c) δ), w, -(d - c))
  | Nat.succ _, TNode.Exec _, δ, w =>
    some (TNode.Exec true, { w with execCount := w.execCount + 1 }, δ)
  | Nat.succ fuel, TNode.Repeat t, δ, w =>
    match repLoop fuel t δ w with
    | none => none
    | some (t2, w2) => some (TNode.Repeat t2, w2, 0)
  | Nat.succ fuel, TNode.Reverse t c d, δ, w =>
    match updateT fuel t (-δ) w with
    | none => none
    | some (t2, w2, r) => some (TNode.Reverse t2 c d, w2, r)

/-- The `while` loop of `Sequence::update` (lines 303-310):

`while remain > 0. && current < len { remain = tweens[current].update(remain);
  if tweens[current].done() { current += 1; } }`

returning `(Sequence state, world, remain)` on exit. -/
def seqLoop : Nat → TList → Nat → ℚ → World → Option (TNode × World × ℚ)
  | 0, _, _, _, _ => none
  | Nat.succ fuel, ts, i, remain, w =>
    if 0 < remain ∧ i < ts.length then
      match ts.getq i with
      | none => none
      | some t =>
        match updateT fuel t remain w with
        | none => none
        | some (t2, w2, r) =>
          seqLoop fuel (ts.setq i t2) (if doneT t2 then i + 1 else i) r w2
    else some (TNode.Sequence ts i, w, remain)

/-- The `while` loop of `Repeat::update` (lines 447-456):

`while remain > 0. { let rest = tween.update(remain);
  if rest >= 0. { tween.reset(); } else { remain += rest; } }`

Note that when `rest >= 0.` the child is reset but `remain` is NOT reduced. -/
def repLoop : Nat → TNode → ℚ → World → Option (TNode × World)
  | 0, _, _, _ => none
  | Nat.succ fuel, t, remain, w =>
    if 0 < remain then
      match updateT fuel t remain w with
      | none => none
      | some (t2, w2, rest) =>
        if 0 ≤ rest then repLoop fuel (resetT t2) remain w2
        else repLoop fuel t2 (remain + rest) w2
    else some (t, w)

/-- The `for` loop of `Parallel::update` (lines 348-353): each child reads its
`remaining`, the running maximum is updated from the pre-update remaining,
and the child is fed `partial_min(remaining, delta)`; the child's return
value is discarded. -/
def parGo : Nat → TList → ℚ → World → RTime → Option (TList × World × RTime)
  | 0, _, _, _, _ => none
  | Nat.succ _, TList.nil, _, w, maxr => some (TList.nil, w, maxr)
  | Nat.succ fuel, TList.cons t ts, δ, w, maxr =>
    match updateT fuel t ((remainingT t).minD δ) w with
    | none => none
    | some (t2, w2, _) =>
      match parGo fuel ts δ w2
          (if RTime.ltR maxr (remainingT t) then remainingT t else maxr) with
      | none => none
      | some (ts2, w3, m) => some (TList.cons t2 ts2, w3, m)
end

/-- Run a list of `update` calls in order, threading node and world. -/
def runDeltas (fuel : Nat) : TNode → List ℚ → World → Option (TNode × World)
  | t, [], w => some (t, w)
  | t, δ :: δs, w =>
    match updateT fuel t δ w with
    | none => none
    | some (t2, w2, _) => runDeltas fuel t2 δs w2

/-- Constructor `Reverse::new` (lines 472-480): reads the child's remaining time, feeds
exactly that much time into the child (advancing it to completion), and
stores the child with `current = 0` and `duration` = the captured remaining.
A child whose remaining is `INFINITY` (`Repeat`) would make the source feed
`f64::INFINITY` into `update`, which the rational model does not represent;
that case yields `none` and is not used by any theorem. -/
def reverseNew (fuel : Nat) (t : TNode) (w : World) : Option (TNode × World) :=
  match remainingT t with
  | RTime.inf => none
  | RTime.fin rem =>
    match updateT fuel t rem w with
    | none => none
    | some (t2, w2, _) => some (TNode.Reverse t2 0 rem, w2)

/-! ### Non-finite tracking model of `Single::update`

`Single::update` divides `current / duration` with no guard; at
`duration = 0` the `f64` division produces a non-finite value (NaN) which
then flows through `ease`, `lerp` and `acc.set`.  `FF` tracks finiteness:
`some q` is a finite float of exact value `q`, `none` is any non-finite
float.  (Overflow of finite arithmetic to infinity is outside the scope of
these claims and is not modelled.) -/

/-- A float that is either finite with exact rational value or non-finite. -/
abbrev FF := Option ℚ

/-- Finiteness-tracking `f64` addition: non-finite operands yield a non-finite result. -/
def FF.addF : FF → FF → FF
  | some a, some b => some (a + b)
  | _, _ => none

/-- Finiteness-tracking `f64` subtraction. -/
def FF.subF : FF → FF → FF
  | some a, some b => some (a - b)
  | _, _ => none

/-- Finiteness-tracking `f64` multiplication. -/
def FF.mulF : FF → FF → FF
  | some a, some b => some (a * b)
  | _, _ => none

/-- Finiteness-tracking `f64` negation. -/
def FF.negF : FF → FF
  | some a => some (-a)
  | none => none

/-- Finiteness-tracking `f64` division: division by zero (NaN or an infinity) and non-finite
operands give a non-finite result. -/
def FF.divF : FF → FF → FF
  | some a, some b => if b = 0 then none else some (a / b)
  | _, _ => none

/-- The call `cmp::partial_min` on two floats, `none` when the comparison fails.
A NaN operand makes `partial_min` return `None` (so the source's `unwrap()`
panics); an infinite operand would compare fine, but no theorem evaluates
this model at an infinite operand, so non-finite is conservatively mapped
to the failure case. -/
def FF.pminF : FF → FF → Option FF
  | some a, some b => some (some (min a b))
  | _, _ => none

/-- The `LinearEase` over `FF`: the identity on any input (a NaN input is
returned unchanged by the source's `fn(t) = t`). -/
def linFE : Mode → FF → FF := fun _ t => t

/-- The fields of `Single` that matter for the division guard question:
`start`, `end`, `current`, `duration` as floats. -/
structure SingleF where
  start : FF
  endv : FF
  current : FF
  duration : FF

/-- Method `Single::update` (`src/lib.rs` lines 195-204) over finiteness-tracking
floats: `t = current / duration`, `a = ease(mode, t)`,
write `lerp(start, end, a) = start + (end - start) * a` through the handle,
advance `current` by `partial_min(remaining, delta).unwrap()` and return
`-remaining`.  The result is `(new state, value written, return value)`,
`none` for the `unwrap` panic. -/
def singleFUpdate (ease : Mode → FF → FF) (mode : Mode) (s : SingleF)
    (δ : FF) : Option (SingleF × FF × FF) :=
  let t := FF.divF s.current s.duration;
  let a := ease mode t;
  let newv := FF.addF s.start (FF.mulF (FF.subF s.endv s.start) a);
  let remain := FF.subF s.duration s.current;
  match FF.pminF remain δ with
  | none => none
  | some m =>
    some ({ s with current := FF.addF s.current m }, newv, FF.negF remain)

/-! ### The easing catalog of `src/ease.rs`, over the reals

Every family overrides `ease_in_out` explicitly, so each translation below is
taken directly from the family's own `impl Ease for ...` block.  Sequential
mutations of the local `mut t` in the source become `let` bindings. -/

/-- Method `LinearEase::ease_in_out` (`src/ease.rs` line 67): the identity. -/
noncomputable def LinearEase.ease_in_out (t : ℝ) : ℝ := t

/-- Method `QuadEase::ease_in_out` (lines 85-92). -/
noncomputable def QuadEase.ease_in_out (t : ℝ) : ℝ :=
  let t2 := t * 2;
  if t2 < 1 then 0.5 * t2 * t2
  else -0.5 * ((t2 - 1) * (t2 - 1 - 2) - 1)

/-- Method `CubicEase::ease_in_out` (lines 109-117). -/
noncomputable def CubicEase.ease_in_out (t : ℝ) : ℝ :=
  let s := t * 2;
  if s < 1 then 0.5 * s * s * s
  else
    let u := s - 2;
    0.5 * (u * u * u + 2)

/-- Method `QuartEase::ease_in_out` (lines 134-141). -/
noncomputable def QuartEase.ease_in_out (t : ℝ) : ℝ :=
  let t2 := t * 2;
  if t2 < 1 then 0.5 * t2 * t2 * t2 * t2
  else
    let u := t2 - 2;
    -0.5 * (u * u * u * u - 2)

/-- Method `QuintEase::ease_in_out` (lines 158-166). -/
noncomputable def QuintEase.ease_in_out (t : ℝ) : ℝ :=
  let t2 := t * 2;
  if t2 < 1 then 0.5 * t2 * t2 * t2 * t2 * t2
  else
    let u := t2 - 2;
    0.5 * (u * u * u * u * u + 2)

/-- Method `SineEase::ease_in_out` (lines 182-184). -/
noncomputable def SineEase.ease_in_out (t : ℝ) : ℝ :=
  -0.5 * (Real.cos (Real.pi * t) - 1)

/-- Method `CircEase::ease_in_out` (lines 203-210). -/
noncomputable def CircEase.ease_in_out (t : ℝ) : ℝ :=
  let t2 := t * 2;
  if t2 < 1 then -0.5 * (Real.sqrt (1 - t2 * t2) - 1)
  else
    let u := t2 - 2;
    0.5 * (Real.sqrt (1 - u * u) + 1)

/-- Method `BounceEase::ease_out` (lines 223-236). -/
noncomputable def BounceEase.ease_out (t : ℝ) : ℝ :=
  if t < 1 / 2.75 then 7.5625 * t * t
  else if t < 2 / 2.75 then
    let s := t - 1.5 / 2.75;
    7.5625 * s * s + 0.75
  else if t < 2.5 / 2.75 then
    let s := t - 2.25 / 2.75;
    7.5625 * s * s + 0.9375
  else
    let s := t - 2.625 / 2.75;
    7.5625 * s * s + 0.984375

/-- Method `BounceEase::ease_in` (lines 220-222). -/
noncomputable def BounceEase.ease_in (t : ℝ) : ℝ :=
  1 - BounceEase.ease_out (1 - t)

/-- Method `BounceEase::ease_in_out` (lines 237-243). -/
noncomputable def BounceEase.ease_in_out (t : ℝ) : ℝ :=
  if t < 0.5 then BounceEase.ease_in (t * 2) * 0.5
  else BounceEase.ease_out (t * 2 - 1) * 0.5 + 0.5

/-- Method `ElasticEase::ease_in_out` (lines 281-297).  The source stores the
amplitude `a` and period `p` as `f64` with NaN as the "unset" sentinel
(`elastic()` constructs both as NaN); the sentinel is modelled by `Option ℝ`
with `none` for NaN, so `x.is_nan()` becomes a `none` match. -/
noncomputable def ElasticEase.ease_in_out (aP pP : Option ℝ) (t : ℝ) : ℝ :=
  let p := match pP with
    | none => 0.3 * 1.5
    | some p0 => p0;
  let a := match aP with
    | none => (1 : ℝ)
    | some a0 => if a0 < 1 then 1 else a0;
  if t = 0 then 0
  else if t * 2 = 2 then 1
  else
    let s := match aP with
      | none => p / 4
      | some a0 =>
        if a0 < 1 then p / 4 else p / (2 * Real.pi) * Real.arcsin (1 / a);
    let u := t * 2 - 1;
    if t * 2 < 1 then
      -0.5 * (a * (2 : ℝ) ^ (10 * u) * Real.sin ((u - s) * (2 * Real.pi) / p))
    else
      a * (2 : ℝ) ^ (-10 * u) * Real.sin ((u - s) * (2 * Real.pi) / p) * 0.5 + 1

/-- Method `BackEase::ease_in_out` (lines 321-332); `back()` constructs the
overshoot constant `s = 1.70158`. -/
noncomputable def BackEase.ease_in_out (s : ℝ) (t : ℝ) : ℝ :=
  let u := t * 2;
  if u < 1 then
    let q := s * 1.525;
    0.5 * (u * u * ((q + 1) * u - q))
  else
    let r := u - 2;
    let q := s * 1.525;
    0.5 * (r * r * ((q + 1) * r + q) + 2)

/-- The initial external state: animated value `0`, no callback firings. -/
def w0 : World := ⟨0, 0⟩

/-- The node `delay(exec(f), 1.0) = seq(vec![pause(1.0), exec(f)])` freshly built. -/
def delayExec : TNode :=
  TNode.Sequence (TList.cons (TNode.Pause 1 0)
    (TList.cons (TNode.Exec false) TList.nil)) 0

mutual
/-- Well-formed time-progress state, the invariant the engine's own API
maintains: leaf elapsed times lie within `[0, duration]`, a `Multi`'s index
is in bounds with its within-timeline time below the current segment's
duration and all segment durations non-negative (the spec requires strictly
positive durations), and child lists are well-formed throughout. -/
def WfT : TNode → Prop
  | TNode.Single _ _ c d _ _ => 0 ≤ c ∧ c ≤ d
  | TNode.Multi data cur ct _ =>
      (∃ hlt : cur < data.length,
        0 ≤ ct ∧ ct ≤ (data.get ⟨cur, hlt⟩).2.2.1) ∧
      ∀ seg ∈ data, 0 ≤ seg.2.2.1
  | TNode.Sequence ts _ => WfL ts
  | TNode.Parallel ts => WfL ts
  | TNode.Pause d c => 0 ≤ c ∧ c ≤ d
  | TNode.Exec _ => True
  | TNode.Repeat t => WfT t
  | TNode.Reverse t c d => WfT t ∧ 0 ≤ c ∧ c ≤ d

/-- Well-formedness of every tween in a child vector. -/
def WfL : TList → Prop
  | TList.nil => True
  | TList.cons t ts => WfT t ∧ WfL ts
end

/-- Pointwise equality of the remaining times of two child vectors. -/
def RemEqL : TList → TList → Prop
  | TList.nil, TList.nil => True
  | TList.cons a as, TList.cons b bs =>
      remainingT a = remainingT b ∧ RemEqL as bs
  | _, _ => False

/-- Ordering of remaining times (`INFINITY` above everything). -/
def RTime.leR : RTime → RTime → Prop
  | RTime.fin a, RTime.fin b => a ≤ b
  | _, RTime.inf => True
  | RTime.inf, RTime.fin _ => False

/-- The running maximum accumulated by `Parallel::update`'s loop over the
children's pre-update remaining times. -/
def foldMax : RTime → TList → RTime
  | acc, TList.nil => acc
  | acc, TList.cons t ts =>
    foldMax (if RTime.ltR acc (remainingT t) then remainingT t else acc) ts

/-- Every child's remaining is finite and non-negative (claim C8's
hypothesis on the `Parallel` children). -/
def AllFinNonneg : TList → Prop
  | TList.nil => True
  | TList.cons t ts =>
    (∃ q, remainingT t = RTime.fin q ∧ 0 ≤ q) ∧ AllFinNonneg ts

/-!
### Helper lemmas
-/

/-- Unfolding step of the wrap loop at an in-bounds index. -/
theorem multiWrap_step (data : List (ℚ × ℚ × ℚ × Mode)) (cur : Nat) (ct : ℚ)
    (hlt : cur < data.length) :
    multiWrap data cur ct =
      if 0 < ct - (data.get ⟨cur, hlt⟩).2.2.1 then
        multiWrap data (cur + 1) (ct - (data.get ⟨cur, hlt⟩).2.2.1)
      else some (cur, ct) := by
  conv_lhs => rw [multiWrap]
  rw [dif_pos hlt]

/-- Durations all non-negative make the duration sum non-negative. -/
theorem sumDurs_nonneg :
    ∀ l : List (ℚ × ℚ × ℚ × Mode), (∀ seg ∈ l, 0 ≤ seg.2.2.1) →
      0 ≤ sumDurs l := by
  intro l
  induction l with
  | nil => intro _; simp [sumDurs]
  | cons seg rest ih =>
    intro h
    obtain ⟨s, e, dur, m⟩ := seg
    have h1 := h (s, e, dur, m) (List.mem_cons_self _ _)
    have h2 := ih fun x hx => h x (List.mem_cons_of_mem _ hx)
    simp only [sumDurs]
    simp only at h1
    linarith

mutual
/-- A well-formed node reports non-negative remaining time. -/
theorem wfT_nonneg : ∀ t : TNode, WfT t → (remainingT t).nonneg
  | TNode.Single s e c d m ef, h => by
    simp only [WfT] at h
    simp only [remainingT, RTime.nonneg]
    linarith [h.1, h.2]
  | TNode.Multi data cur ct ef, h => by
    simp only [WfT] at h
    obtain ⟨⟨hlt, hct0, hctd⟩, hdurs⟩ := h
    obtain ⟨s, e, dur, m, hget⟩ :
        ∃ s e dur m, data.get ⟨cur, hlt⟩ = (s, e, dur, m) := ⟨_, _, _, _, rfl⟩
    rw [hget] at hctd
    simp only at hctd
    have hdrop : List.drop cur data
        = (s, e, dur, m) :: List.drop (cur + 1) data := by
      rw [List.drop_eq_get_cons hlt, hget]
    have hrest : 0 ≤ sumDurs (List.drop (cur + 1) data) :=
      sumDurs_nonneg _ fun x hx => hdurs x (List.mem_of_mem_drop hx)
    simp only [remainingT, RTime.nonneg, hdrop, sumDurs]
    linarith
  | TNode.Sequence ts i, h => by
    simp only [WfT] at h
    simpa [remainingT] using wfL_sum_nonneg ts h
  | TNode.Parallel ts, h => by
    simp only [WfT] at h
    simpa [remainingT] using wfL_max_nonneg ts h
  | TNode.Pause d c, h => by
    simp only [WfT] at h
    simp only [remainingT, RTime.nonneg]
    linarith [h.1, h.2]
  | TNode.Exec b, _ => by simp [remainingT, RTime.nonneg]
  | TNode.Repeat t, _ => by simp [remainingT, RTime.nonneg]
  | TNode.Reverse t c d, h => by
    simp only [WfT] at h
    simp only [remainingT, RTime.nonneg]
    linarith [h.2.1, h.2.2]

/-- A well-formed child vector has a non-negative remaining sum. -/
theorem wfL_sum_nonneg : ∀ ts : TList, WfL ts → (sumRemaining ts).nonneg
  | TList.nil, _ => by simp [sumRemaining, RTime.nonneg]
  | TList.cons t ts, h => by
    simp only [WfL] at h
    have h1 := wfT_nonneg t h.1
    have h2 := wfL_sum_nonneg ts h.2
    simp only [sumRemaining]
    cases hr : remainingT t with
    | fin a =>
      cases hs : sumRemaining ts with
      | fin b =>
        rw [hr] at h1; rw [hs] at h2
        simp only [RTime.nonneg] at h1 h2
        simp only [RTime.add, RTime.nonneg]
        linarith
      | inf => simp [RTime.add, RTime.nonneg]
    | inf => simp [RTime.add, RTime.nonneg]

/-- A well-formed child vector has a non-negative remaining maximum. -/
theorem wfL_max_nonneg : ∀ ts : TList, WfL ts → (maxRemaining ts).nonneg
  | TList.nil, _ => by simp [maxRemaining, RTime.nonneg]
  | TList.cons t TList.nil, h => by
    simp only [WfL] at h
    simpa [maxRemaining] using wfT_nonneg t h.1
  | TList.cons t (TList.cons t2 ts), h => by
    simp only [WfL] at h
    have h1 := wfT_nonneg t h.1
    have h2 := wfL_max_nonneg (TList.cons t2 ts) (by simp only [WfL]; exact h.2)
    simp only [maxRemaining]
    cases hr : remainingT t with
    | fin a =>
      cases hs : maxRemaining (TList.cons t2 ts) with
      | fin b =>
        rw [hr] at h1; rw [hs] at h2
        simp only [RTime.nonneg] at h1 h2
        simp only [RTime.maxR, RTime.nonneg, le_max_iff]
        left; exact h1
      | inf => simp [RTime.maxR, RTime.nonneg]
    | inf => simp [RTime.maxR, RTime.nonneg]
end

/-- Pointwise-equal remaining times give equal maxima. -/
theorem remEqL_max :
    ∀ as bs, RemEqL as bs → maxRemaining as = maxRemaining bs
  | TList.nil, TList.nil, _ => rfl
  | TList.nil, TList.cons _ _, h => by simp only [RemEqL] at h
  | TList.cons _ _, TList.nil, h => by simp only [RemEqL] at h
  | TList.cons a TList.nil, TList.cons b TList.nil, h => by
    simp only [RemEqL] at h
    simpa [maxRemaining] using h.1
  | TList.cons a TList.nil, TList.cons b (TList.cons b2 bs2), h => by
    simp only [RemEqL] at h
    exact absurd h.2 (by simp [RemEqL])
  | TList.cons a (TList.cons a2 as2), TList.cons b TList.nil, h => by
    simp only [RemEqL] at h
    exact absurd h.2 (by simp [RemEqL])
  | TList.cons a (TList.cons a2 as2), TList.cons b (TList.cons b2 bs2), h => by
    simp only [RemEqL] at h
    have htail := remEqL_max (TList.cons a2 as2) (TList.cons b2 bs2) h.2
    simp only [maxRemaining]
    rw [h.1, htail]

theorem RTime.leR_refl : ∀ a, RTime.leR a a := by
  intro a; cases a <;> simp [RTime.leR]

theorem RTime.leR_trans :
    ∀ a b c, RTime.leR a b → RTime.leR b c → RTime.leR a c := by
  intro a b c h1 h2
  cases a <;> cases b <;> cases c <;>
    simp_all [RTime.leR] <;> linarith

theorem RTime.leR_maxR_left : ∀ a b, RTime.leR a (RTime.maxR a b) := by
  intro a b
  cases a <;> cases b <;> simp [RTime.leR, RTime.maxR, le_max_left]

theorem RTime.leR_maxR_right : ∀ a b, RTime.leR b (RTime.maxR a b) := by
  intro a b
  cases a <;> cases b <;> simp [RTime.leR, RTime.maxR, le_max_right]

theorem RTime.maxR_choice :
    ∀ a b, RTime.maxR a b = a ∨ RTime.maxR a b = b := by
  intro a b
  cases a with
  | inf => left; rfl
  | fin x =>
    cases b with
    | inf => right; rfl
    | fin y =>
      rcases max_choice x y with h | h
      · left; simp [RTime.maxR, h]
      · right; simp [RTime.maxR, h]

theorem RTime.maxR_assoc :
    ∀ a b c, RTime.maxR (RTime.maxR a b) c = RTime.maxR a (RTime.maxR b c) := by
  intro a b c
  cases a <;> cases b <;> cases c <;> simp [RTime.maxR, max_assoc]

/-- The running-maximum update of `Parallel::update`
(`if remain > max_remain { max_remain = remain }`) computes the `f64` max. -/
theorem RTime.if_ltR_eq_maxR :
    ∀ a b, (if RTime.ltR a b then b else a) = RTime.maxR a b := by
  intro a b
  cases a with
  | inf => cases b <;> simp [RTime.ltR, RTime.maxR]
  | fin x =>
    cases b with
    | inf => simp [RTime.ltR, RTime.maxR]
    | fin y =>
      by_cases h : x < y
      · simp [RTime.ltR, RTime.maxR, h, max_eq_right h.le]
      · simp [RTime.ltR, RTime.maxR, h, max_eq_left (not_lt.mp h)]

/-- Every child's remaining is below the `Parallel` maximum. -/
theorem maxRemaining_mem_le :
    ∀ ts, ∀ t ∈ ts.toList, RTime.leR (remainingT t) (maxRemaining ts)
  | TList.nil, t, ht => by simp [TList.toList] at ht
  | TList.cons a TList.nil, t, ht => by
    simp only [TList.toList, List.mem_cons, List.not_mem_nil, or_false] at ht
    subst ht
    simpa [maxRemaining] using RTime.leR_refl (remainingT t)
  | TList.cons a (TList.cons a2 as2), t, ht => by
    simp only [TList.toList, List.mem_cons] at ht
    rcases ht with h1 | h2
    · subst h1
      simp only [maxRemaining]
      exact RTime.leR_maxR_left _ _
    · have hmem : t ∈ (TList.cons a2 as2).toList := by
        simpa [TList.toList] using h2
      have htail := maxRemaining_mem_le (TList.cons a2 as2) t hmem
      simp only [maxRemaining]
      exact RTime.leR_trans _ _ _ htail (RTime.leR_maxR_right _ _)

/-- The `Parallel` maximum is attained by some child. -/
theorem maxRemaining_mem_eq :
    ∀ ts, ts ≠ TList.nil → ∃ t ∈ ts.toList, remainingT t = maxRemaining ts
  | TList.nil, h => absurd rfl h
  | TList.cons a TList.nil, _ =>
    ⟨a, by simp [TList.toList], by simp [maxRemaining]⟩
  | TList.cons a (TList.cons a2 as2), _ => by
    obtain ⟨t, ht, he⟩ := maxRemaining_mem_eq (TList.cons a2 as2)
      (by intro hc; cases hc)
    rcases RTime.maxR_choice (remainingT a)
        (maxRemaining (TList.cons a2 as2)) with hc | hc
    · refine ⟨a, by simp [TList.toList], ?_⟩
      simp only [maxRemaining]
      rw [hc]
    · refine ⟨t, ?_, ?_⟩
      · simp only [TList.toList, List.mem_cons]
        right
        simpa [TList.toList] using ht
      · simp only [maxRemaining]
        rw [hc, he]

/-- What `Parallel::update`'s loop does: each child is fed
`partial_min(its remaining, delta)` (in list order, threading the world), and
the returned maximum is the fold of the pre-update remaining times over the
running maximum. -/
theorem parGo_spec :
    ∀ (ts : TList) (fuel : Nat) (δ : ℚ) (w : World) (maxr : RTime)
      (out : TList × World × RTime),
      parGo fuel ts δ w maxr = some out →
      List.Forall₂ (fun a b => ∃ f2 w1 wb rb,
        updateT f2 a ((remainingT a).minD δ) w1 = some (b, wb, rb))
        ts.toList out.1.toList ∧
      out.2.2 = foldMax maxr ts
  | TList.nil, fuel, δ, w, maxr, out => by
    intro h
    cases fuel with
    | zero => exact absurd h (by simp [parGo])
    | succ f =>
      simp only [parGo, Option.some.injEq] at h
      rw [← h]
      exact ⟨List.Forall₂.nil, rfl⟩
  | TList.cons t ts2, fuel, δ, w, maxr, out => by
    intro h
    cases fuel with
    | zero => exact absurd h (by simp [parGo])
    | succ f =>
      simp only [parGo] at h
      cases hu : updateT f t ((remainingT t).minD δ) w with
      | none => rw [hu] at h; exact absurd h (by simp)
      | some p =>
        obtain ⟨t2, w2, r2⟩ := p
        cases hp : parGo f ts2 δ w2
            (if RTime.ltR maxr (remainingT t) then remainingT t
             else maxr) with
        | none => simp only [hu, hp] at h; exact absurd h (by simp)
        | some q =>
          obtain ⟨ts3, w3, m3⟩ := q
          simp only [hu, hp, Option.some.injEq] at h
          obtain ⟨hfa, hfm⟩ := parGo_spec ts2 f δ w2 _ (ts3, w3, m3) hp
          rw [← h]
          constructor
          · exact List.Forall₂.cons ⟨f, w, w2, r2, hu⟩ hfa
          · simpa [foldMax] using hfm

/-- Folding the running maximum over a non-empty vector from any seed gives
the max of the seed and the vector's maximum. -/
theorem foldMax_maxR :
    ∀ ts acc, ts ≠ TList.nil →
      foldMax acc ts = RTime.maxR acc (maxRemaining ts)
  | TList.nil, acc, h => absurd rfl h
  | TList.cons t TList.nil, acc, _ => by
    simp only [foldMax, maxRemaining, RTime.if_ltR_eq_maxR]
  | TList.cons t (TList.cons t2 ts2), acc, _ => by
    have htail := foldMax_maxR (TList.cons t2 ts2)
      (RTime.maxR acc (remainingT t)) (by intro hc; cases hc)
    simp only [foldMax, RTime.if_ltR_eq_maxR] at htail ⊢
    rw [htail]
    simp only [maxRemaining]
    rw [RTime.maxR_assoc]

/-- Finite, non-negative children give a finite, non-negative maximum. -/
theorem allFinNonneg_max :
    ∀ ts, AllFinNonneg ts →
      ∃ M, maxRemaining ts = RTime.fin M ∧ 0 ≤ M
  | TList.nil, _ => ⟨0, rfl, le_refl 0⟩
  | TList.cons t TList.nil, h => by
    simp only [AllFinNonneg] at h
    obtain ⟨⟨q, hq, hq0⟩, -⟩ := h
    exact ⟨q, by simp only [maxRemaining]; exact hq, hq0⟩
  | TList.cons t (TList.cons t2 ts2), h => by
    simp only [AllFinNonneg] at h
    obtain ⟨⟨q, hq, hq0⟩, htail⟩ := h
    obtain ⟨M, hM, hM0⟩ := allFinNonneg_max (TList.cons t2 ts2)
      (by simp only [AllFinNonneg]; exact htail)
    refine ⟨max q M, ?_, le_max_of_le_left hq0⟩
    simp only [maxRemaining]
    rw [hq, hM]
    rfl

/-- Core induction for the amended claim C6: with zero delta, a well-formed
node's `update` leaves its `remaining()` unchanged (and `Parallel`'s loop
leaves every child's remaining unchanged).  Leaves advance by
`min(remaining, 0) = 0`; the `Sequence` and `Repeat` loops exit immediately
on `remain = 0`; `Multi` adds `0` and does not wrap because the within-segment
time is at most the segment duration; `Parallel` feeds each child
`min(remaining, 0) = 0`. -/
theorem updateT_zero_aux : ∀ fuel : Nat,
    (∀ (t : TNode) (w : World) (out : TNode × World × ℚ),
      WfT t → updateT fuel t 0 w = some out →
      remainingT out.1 = remainingT t) ∧
    (∀ (ts : TList) (w : World) (maxr : RTime) (out : TList × World × RTime),
      WfL ts → parGo fuel ts 0 w maxr = some out → RemEqL out.1 ts) := by
  intro fuel
  induction fuel with
  | zero =>
    constructor
    · intro t w out _ h; exact absurd h (by simp [updateT])
    · intro ts w maxr out _ h; exact absurd h (by simp [parGo])
  | succ f ih =>
    constructor
    · intro t w out hwf h
      cases t with
      | Single s e c d m ef =>
        simp only [WfT] at hwf
        simp only [updateT, Option.some.injEq] at h
        have hmin : min (d - c) (0 : ℚ) = 0 :=
          min_eq_right (by linarith [hwf.1, hwf.2])
        rw [← h]
        simp [remainingT, hmin]
      | Multi data cur ct ef =>
        simp only [WfT] at hwf
        obtain ⟨⟨hlt, hct0, hctd⟩, hdurs⟩ := hwf
        obtain ⟨s, e, dur, m, hget⟩ :
            ∃ s e dur m, data.get ⟨cur, hlt⟩ = (s, e, dur, m) :=
          ⟨_, _, _, _, rfl⟩
        rw [hget] at hctd
        simp only at hctd
        have hwrap : multiWrap data cur (ct + 0) = some (cur, ct) := by
          rw [add_zero, multiWrap_step data cur ct hlt, hget]
          simp only
          rw [if_neg (by linarith)]
        have hq : data.get? cur = some (s, e, dur, m) := by
          rw [List.get?_eq_get hlt, hget]
        simp only [updateT, hwrap, hq, Option.some.injEq] at h
        rw [← h]
      | Sequence ts i =>
        simp only [updateT] at h
        cases f with
        | zero => exact absurd h (by simp [seqLoop])
        | succ f2 =>
          simp only [seqLoop, lt_irrefl, false_and, if_false,
            Option.some.injEq] at h
          rw [← h]
      | Parallel ts =>
        simp only [WfT] at hwf
        simp only [updateT] at h
        cases hp : parGo f ts 0 w (RTime.fin 0) with
        | none => rw [hp] at h; exact absurd h (by simp)
        | some p =>
          obtain ⟨ts2, w2, m⟩ := p
          have hrem := ih.2 ts w (RTime.fin 0) (ts2, w2, m) hwf hp
          cases m with
          | inf => simp only [hp] at h; exact absurd h (by simp)
          | fin M =>
            simp only [hp, Option.some.injEq] at h
            rw [← h]
            simp only [remainingT]
            exact remEqL_max ts2 ts hrem
      | Pause d c =>
        simp only [WfT] at hwf
        simp only [updateT, Option.some.injEq] at h
        have hmin : min (d - c) (0 : ℚ) = 0 :=
          min_eq_right (by linarith [hwf.1, hwf.2])
        rw [← h]
        simp [remainingT, hmin]
      | Exec b =>
        simp only [updateT, Option.some.injEq] at h
        rw [← h]
        simp [remainingT]
      | Repeat t =>
        simp only [updateT] at h
        cases f with
        | zero => exact absurd h (by simp [repLoop])
        | succ f2 =>
          have hr : repLoop (f2 + 1) t 0 w = some (t, w) := by
            simp [repLoop]
          simp only [hr, Option.some.injEq] at h
          rw [← h]
      | Reverse t c d =>
        simp only [updateT] at h
        cases hu : updateT f t (-0) w with
        | none => rw [hu] at h; exact absurd h (by simp)
        | some p =>
          obtain ⟨t2, w2, r2⟩ := p
          simp only [hu, Option.some.injEq] at h
          rw [← h]
          simp [remainingT]
    · intro ts w maxr out hwf h
      cases ts with
      | nil =>
        simp only [parGo, Option.some.injEq] at h
        rw [← h]
        simp [RemEqL]
      | cons t ts2 =>
        simp only [WfL] at hwf
        obtain ⟨hwt, hwts⟩ := hwf
        simp only [parGo] at h
        have hmin : (remainingT t).minD 0 = 0 := by
          have hnn := wfT_nonneg t hwt
          cases hr : remainingT t with
          | fin q =>
            rw [hr] at hnn
            simp only [RTime.nonneg] at hnn
            simp [RTime.minD, min_eq_right hnn]
          | inf => simp [RTime.minD]
        rw [hmin] at h
        cases hu : updateT f t 0 w with
        | none => rw [hu] at h; exact absurd h (by simp)
        | some p =>
          obtain ⟨t2, w2, r2⟩ := p
          cases hp : parGo f ts2 0 w2
              (if RTime.ltR maxr (remainingT t) then remainingT t
               else maxr) with
          | none => simp only [hu, hp] at h; exact absurd h (by simp)
          | some q =>
            obtain ⟨ts3, w3, m3⟩ := q
            simp only [hu, hp, Option.some.injEq] at h
            rw [← h]
            have e1 := ih.1 t w (t2, w2, r2) hwt hu
            have e2 := ih.2 ts2 w2 _ (ts3, w3, m3) hwts hp
            exact ⟨e1, e2⟩

/-- Helper: `Repeat::update` on an `Exec` child never leaves its loop —
`Exec::update` returns `delta` unchanged and non-negative, so the loop resets
the child and retries with the SAME `remain` forever.  In the fuel model the
loop returns `none` at every fuel. -/
theorem repLoop_exec_diverges :
    ∀ (fuel : Nat) (w : World), repLoop fuel (TNode.Exec false) 1 w = none := by
  intro fuel
  induction fuel with
  | zero => intro w; rfl
  | succ f ih =>
    intro w
    cases f with
    | zero => simp [repLoop, updateT]
    | succ f2 =>
      have h2 := ih ⟨w.val, w.execCount + 1⟩
      simp only [repLoop, updateT, resetT] at h2 ⊢
      norm_num at h2 ⊢
      exact h2

/-- Helper: `Reverse::update` only updates the child (with `-delta`); its own
`current` and `duration` fields are untouched, so the result is again a
`Reverse` with the same `current` and `duration`. -/
theorem updateT_reverse_shape :
    ∀ (fuel : Nat) (c : TNode) (cur dur δ : ℚ) (w : World)
      (out : TNode × World × ℚ),
      updateT fuel (TNode.Reverse c cur dur) δ w = some out →
      ∃ c2, out.1 = TNode.Reverse c2 cur dur := by
  intro fuel c cur dur δ w out h
  cases fuel with
  | zero => exact absurd h (by simp [updateT])
  | succ f =>
    simp only [updateT] at h
    cases hu : updateT f c (-δ) w with
    | none => rw [hu] at h; exact absurd h (by simp)
    | some p =>
      rw [hu] at h
      simp only [Option.some.injEq] at h
      exact ⟨p.1, by rw [← h]⟩

/-- Claim C2 amended (helper): as long as the running time stays within the
total duration of the segments from the current one on, the wrap loop stops
at an in-bounds segment.  Strong induction on the distance to the end. -/
theorem multiWrap_bounds_aux :
    ∀ (n : Nat) (data : List (ℚ × ℚ × ℚ × Mode)) (cur : Nat) (ct : ℚ),
      data.length - cur = n → cur < data.length →
      ct ≤ sumDurs (List.drop cur data) →
      ∃ cur2 ct2, multiWrap data cur ct = some (cur2, ct2) ∧
        cur2 < data.length := by
  intro n
  induction n using Nat.strong_induction_on with
  | _ n ih =>
    intro data cur ct hn hcur hle
    obtain ⟨s, e, dur, m, hget⟩ :
        ∃ s e dur m, data.get ⟨cur, hcur⟩ = (s, e, dur, m) :=
      ⟨_, _, _, _, rfl⟩
    have hdrop : List.drop cur data
        = (s, e, dur, m) :: List.drop (cur + 1) data := by
      rw [List.drop_eq_get_cons hcur, hget]
    have hstep : multiWrap data cur ct =
        if 0 < ct - dur then multiWrap data (cur + 1) (ct - dur)
        else some (cur, ct) := by
      conv_lhs => rw [multiWrap]
      rw [dif_pos hcur, hget]
    by_cases hgt : 0 < ct - dur
    · have hsum : sumDurs (List.drop cur data)
          = dur + sumDurs (List.drop (cur + 1) data) := by
        rw [hdrop]; rfl
      have hrest : ct - dur ≤ sumDurs (List.drop (cur + 1) data) := by
        linarith
      have hcur1 : cur + 1 < data.length := by
        by_contra hge
        have hnil : List.drop (cur + 1) data = [] :=
          List.drop_eq_nil_of_le (by omega)
        rw [hnil] at hrest
        simp only [sumDurs] at hrest
        linarith
      obtain ⟨cur2, ct2, hw, hb⟩ := ih (data.length - (cur + 1)) (by omega)
        data (cur + 1) (ct - dur) rfl hcur1 hrest
      exact ⟨cur2, ct2, by rw [hstep, if_pos hgt]; exact hw, hb⟩
    · exact ⟨cur, ct, by rw [hstep, if_neg hgt], hcur⟩

/-!
### The claims
-/

/-- Claim C1 fails on the code: `delay(exec(f), 1.0)` fed `0.5` and then
`0.6` has still not fired the callback after the second update (the counter
reads `0`, not the `1` the claim requires).  `Pause::update` returns
`-remaining_before <= 0`, so `Sequence::update`'s `while remain > 0` loop
exits before the leftover `0.1` ever reaches the `Exec` child. -/
theorem c1_counterexample :
    (runDeltas 9 delayExec [1/2, 3/5] w0).map (fun p => p.2.execCount)
      = some 0 ∧ (0 : Nat) ≠ 1 := by
  constructor
  · norm_num [runDeltas, updateT, seqLoop, delayExec, w0, TList.length,
      TList.getq, TList.setq, doneT, remainingT, RTime.nonpos, min_def]
  · simp

/-- Claim C1 amended: when the active child of a `Sequence` completes, the
index advances in the same call, but leftover time is fed onward within that
call only when the completing child's `update` returned a positive leftover
(as `Exec` does, returning `delta` unchanged) — `Pause` and `Single` return
`-remaining_before ≤ 0`, which ends the call.  For `delay(exec(f), 1.0)` fed
`0.5` then `0.6`: the callback has not fired after the first update, has not
fired after the second update either (though the index has moved past the
pause), and fires exactly once on a third update with positive delta.  One
call still can cross several child boundaries when the children return
positive leftovers: a sequence `[exec, exec, pause]` fed `0.5` fires both
callbacks and stops at the pause in a single call. -/
theorem c1_sequence_leftover_amended :
    (runDeltas 9 delayExec [1/2] w0).map (fun p => p.2.execCount) = some 0 ∧
    runDeltas 9 delayExec [1/2, 3/5] w0
      = some (TNode.Sequence (TList.cons (TNode.Pause 1 1)
          (TList.cons (TNode.Exec false) TList.nil)) 1, ⟨0, 0⟩) ∧
    runDeltas 9 delayExec [1/2, 3/5, 1/10] w0
      = some (TNode.Sequence (TList.cons (TNode.Pause 1 1)
          (TList.cons (TNode.Exec true) TList.nil)) 2, ⟨0, 1⟩) ∧
    updateT 9 (TNode.Sequence (TList.cons (TNode.Exec false)
        (TList.cons (TNode.Exec false)
          (TList.cons (TNode.Pause 1 0) TList.nil))) 0) (1/2) w0
      = some (TNode.Sequence (TList.cons (TNode.Exec true)
          (TList.cons (TNode.Exec true)
            (TList.cons (TNode.Pause 1 (1/2)) TList.nil))) 2, ⟨0, 2⟩, -1) := by
  refine ⟨?_, ?_, ?_, ?_⟩ <;>
    norm_num [runDeltas, updateT, seqLoop, delayExec, w0, TList.length,
      TList.getq, TList.setq, doneT, remainingT, RTime.nonpos, min_def]

/-- Claim C2 fails on the code: the wrap loop of `Multi::update` has no
terminal guard.  A `Multi` with the single segment `(0, 10, duration 1)` fed
delta `2` wraps past the last segment: the loop subtracts the final duration,
increments the index to `1` (the length of the list) and then indexes
`self.data[1]` out of bounds — a panic (`none`), not a stop at the last
segment. -/
theorem c2_counterexample :
    multiWrap [((0 : ℚ), (10 : ℚ), (1 : ℚ), Mode.In)] 0 2 = none ∧
    updateT 5 (TNode.Multi [((0 : ℚ), (10 : ℚ), (1 : ℚ), Mode.In)] 0 0 linE)
        2 w0 = none := by
  constructor
  · rw [multiWrap]
    norm_num [List.get]
    rw [multiWrap]
    norm_num
  · simp only [updateT]
    rw [multiWrap]
    norm_num [List.get]
    rw [multiWrap]
    norm_num

/-- Claim C2 amended: for every `Multi` node whose current index is in bounds,
the segment-wrap loop terminates at an in-bounds segment PROVIDED the running
elapsed time does not exceed the total duration of the segments from the
current one onward; once it exceeds that sum, the loop walks past the last
segment and the update faults with an out-of-bounds index (see the
counterexample) instead of stopping at the last segment. -/
theorem c2_multi_wrap_amended :
    ∀ (data : List (ℚ × ℚ × ℚ × Mode)) (cur : Nat) (ct : ℚ),
      cur < data.length → ct ≤ sumDurs (List.drop cur data) →
      ∃ cur2 ct2, multiWrap data cur ct = some (cur2, ct2) ∧
        cur2 < data.length :=
  fun data cur ct h1 h2 =>
    multiWrap_bounds_aux (data.length - cur) data cur ct rfl h1 h2

/-- Witness for the amended claim C2: a two-segment `Multi` (durations `1`
and `2`) fed total time `5/2 ≤ 3` wraps into the second segment and stays in
bounds. -/
theorem c2_multi_wrap_amended_witness :
    ∃ cur2 ct2,
      multiWrap [((0 : ℚ), (10 : ℚ), (1 : ℚ), Mode.In),
        ((10 : ℚ), (0 : ℚ), (2 : ℚ), Mode.In)] 0 (5/2)
        = some (cur2, ct2) ∧
      cur2 < ([((0 : ℚ), (10 : ℚ), (1 : ℚ), Mode.In),
        ((10 : ℚ), (0 : ℚ), (2 : ℚ), Mode.In)]).length :=
  c2_multi_wrap_amended _ 0 (5/2) (by norm_num)
    (by norm_num [sumDurs, List.drop_zero])

/-- Claim C3 fails on the code: `Reverse::new` around
`Single(start 0, end 10, duration 1, linear)` advances the child to
completion, and then a single `update(1.0)` on the `Reverse` leaves the
accessed value at `10`, not at the original start `0` — `Single::update`
writes the value computed from the elapsed time BEFORE advancing it, so the
written value lags one call behind. -/
theorem c3_counterexample :
    reverseNew 9 (TNode.Single 0 10 0 1 Mode.In linE) w0
      = some (TNode.Reverse (TNode.Single 0 10 1 1 Mode.In linE) 0 1,
          ⟨0, 0⟩) ∧
    updateT 9 (TNode.Reverse (TNode.Single 0 10 1 1 Mode.In linE) 0 1) 1
        ⟨0, 0⟩
      = some (TNode.Reverse (TNode.Single 0 10 0 1 Mode.In linE) 0 1,
          ⟨10, 0⟩, 0) ∧
    (10 : ℚ) ≠ 0 := by
  refine ⟨?_, ?_, by norm_num⟩ <;>
    norm_num [reverseNew, updateT, remainingT, linE, w0, min_def]

/-- Claim C3 amended: for a `Reverse` of `Single(start 0, end 10, duration 1,
linear)`, feeding a total of `1.0` delta returns the wrapped child's elapsed
time to `0`, but the accessed value is written from the elapsed time before
each call, so after the `1.0` call it reads `10`; one further `update(0)`
call writes the pre-tween start value `0`. -/
theorem c3_reverse_amended :
    reverseNew 9 (TNode.Single 0 10 0 1 Mode.In linE) w0
      = some (TNode.Reverse (TNode.Single 0 10 1 1 Mode.In linE) 0 1,
          ⟨0, 0⟩) ∧
    runDeltas 9 (TNode.Reverse (TNode.Single 0 10 1 1 Mode.In linE) 0 1)
        [1, 0] ⟨0, 0⟩
      = some (TNode.Reverse (TNode.Single 0 10 0 1 Mode.In linE) 0 1,
          ⟨0, 0⟩) := by
  refine ⟨?_, ?_⟩ <;>
    norm_num [reverseNew, runDeltas, updateT, remainingT, linE, w0, min_def]

/-- Claim C4 fails on the code: a `Repeat` wrapping an `Exec` child, fed the
finite positive delta `1`, never terminates — for every amount of fuel the
interpreter exhausts it inside the `while remain > 0` loop, because `Exec`
returns its delta unchanged and `Repeat` then resets the child without
reducing `remain`. -/
theorem c4_counterexample :
    (∀ fuel : Nat,
      updateT fuel (TNode.Repeat (TNode.Exec false)) 1 w0 = none) ∧
    (0 : ℚ) < 1 := by
  refine ⟨?_, by norm_num⟩
  intro fuel
  cases fuel with
  | zero => rfl
  | succ f => simp [updateT, repLoop_exec_diverges]

/-- Claim C4 amended: whenever `Repeat::update`'s feeding loop terminates,
the call returns `0` — and it does terminate for a child whose cycles consume
time, e.g. a `Pause` of duration `1` fed delta `3` (two full cycles plus a
partial one).  For a child that consumes no time, such as `Exec`, the loop
never terminates (see the counterexample). -/
theorem c4_repeat_amended :
    (∀ (fuel : Nat) (t : TNode) (δ : ℚ) (w : World) (out : TNode × World × ℚ),
        updateT fuel (TNode.Repeat t) δ w = some out → out.2.2 = 0) ∧
    updateT 12 (TNode.Repeat (TNode.Pause 1 0)) 3 w0
      = some (TNode.Repeat (TNode.Pause 1 1), w0, 0) := by
  constructor
  · intro fuel t δ w out h
    cases fuel with
    | zero => exact absurd h (by simp [updateT])
    | succ f =>
      simp only [updateT] at h
      cases hr : repLoop f t δ w with
      | none => rw [hr] at h; exact absurd h (by simp)
      | some p =>
        rw [hr] at h
        simp only [Option.some.injEq] at h
        rw [← h]
  · norm_num [updateT, repLoop, resetT, w0, min_def]

/-- Witness for the amended claim C4: the terminating `Repeat (Pause 1)` run
fed delta `3` indeed returns `0`. -/
theorem c4_repeat_amended_witness :
    ((TNode.Repeat (TNode.Pause 1 1), w0, (0 : ℚ))
        : TNode × World × ℚ).2.2 = 0 :=
  c4_repeat_amended.1 12 (TNode.Pause 1 0) 3 w0 _ c4_repeat_amended.2

/-- Claim C5 amended: `Exec::update` runs the callback unconditionally on
EVERY call — once on the first call after construction or reset (after which
`done()` reads the `executed` flag as true), and again on any further direct
call; the `executed` flag only feeds `done()`, it does not guard `update`.
Within a `Sequence` the callback still fires only once, because the sequence
stops updating a child whose `done()` is true. -/
theorem c5_exec_fires_every_update :
    ∀ (b : Bool) (δ : ℚ) (w : World) (fuel : Nat),
      updateT (fuel + 1) (TNode.Exec b) δ w
        = some (TNode.Exec true, ⟨w.val, w.execCount + 1⟩, δ) := by
  intro b δ w fuel
  rfl

/-- Claim C5 fails on the code: after its first update an `Exec` reports
`done()`, yet a second direct `update` call invokes the callback again — the
externally observable counter reaches `2`, not the `1` that "fires exactly
once / further calls are a no-op" requires. -/
theorem c5_counterexample :
    runDeltas 5 (TNode.Exec false) [1] w0 = some (TNode.Exec true, ⟨0, 1⟩) ∧
    doneT (TNode.Exec true) = true ∧
    runDeltas 5 (TNode.Exec false) [1, 1] w0
      = some (TNode.Exec true, ⟨0, 2⟩) ∧
    (2 : Nat) ≠ 1 := by
  refine ⟨?_, rfl, ?_, by norm_num⟩ <;>
    norm_num [runDeltas, updateT, w0]

/-- Claim C6 amended: for every tween node in a well-formed state,
`update(0)` leaves `remaining()` unchanged; the accessed value, however, MAY
change — `Single` and `Multi` rewrite it to the value determined by the
current progress on every update, including a zero-delta one (see the
counterexample), so only the remaining-time half of the claim holds. -/
theorem c6_update_zero_amended :
    ∀ (fuel : Nat) (t : TNode) (w : World) (out : TNode × World × ℚ),
      WfT t → updateT fuel t 0 w = some out →
      remainingT out.1 = remainingT t :=
  fun fuel => (updateT_zero_aux fuel).1

/-- Claim C6 fails on the code for the accessed value: a fresh
`Single(start 0, end 10, duration 1, linear)` whose accessed cell externally
holds `7` overwrites it with `0` on `update(0)` — `Single::update` writes the
eased value unconditionally before looking at the delta. -/
theorem c6_counterexample :
    updateT 3 (TNode.Single 0 10 0 1 Mode.In linE) 0 ⟨7, 0⟩
      = some (TNode.Single 0 10 0 1 Mode.In linE, ⟨0, 0⟩, -1) ∧
    (0 : ℚ) ≠ 7 := by
  constructor
  · norm_num [updateT, linE, min_def]
  · norm_num

/-- Witness for the amended claim C6: a half-way `Single` updated with zero
delta keeps its remaining time. -/
theorem c6_update_zero_amended_witness :
    remainingT (TNode.Single 0 10 (1/2) 1 Mode.In linE)
      = remainingT (TNode.Single 0 10 (1/2) 1 Mode.In linE) :=
  c6_update_zero_amended 3 (TNode.Single 0 10 (1/2) 1 Mode.In linE) ⟨7, 0⟩
    (TNode.Single 0 10 (1/2) 1 Mode.In linE, ⟨5, 0⟩, -(1/2))
    (by norm_num [WfT])
    (by norm_num [updateT, linE, min_def])

/-- Claim C7: the code does NOT guard the `current / duration` division.
Evaluating `Single::update` (over finiteness-tracking floats) on a leaf
constructed with `start = 0`, `end = 10`, `duration = 0` and the linear
easing: the very first `update(1.0)` computes `t = 0/0` (non-finite) and
writes a non-finite value through the access handle, leaving the state
unchanged — so every later update writes a non-finite value again.  The
claim's required guard is absent. -/
theorem c7_zero_duration_writes_nonfinite :
    singleFUpdate linFE Mode.In
        ⟨some 0, some 10, some 0, some 0⟩ (some 1)
      = some (⟨some 0, some 10, some 0, some 0⟩, none, some 0) ∧
    (none : FF) ≠ some 0 := by
  constructor
  · norm_num [singleFUpdate, linFE, FF.divF, FF.addF, FF.subF, FF.mulF,
      FF.negF, FF.pminF]
  · simp

/-- Claim C8: for a `Parallel` with a non-empty child vector whose children
all have finite non-negative remaining time: (1) `remaining()` is an upper
bound of the children's remaining times and (2) is attained by some child
(i.e. it is their maximum); on a successful `update(delta)`, (3) each
post-update child is its pre-update self updated with
`partial_min(its remaining, delta)`, (4) the delta fed to a child never
exceeds that child's remaining (no child is driven past its own completion),
and (5) the call returns `max_remaining - delta` — equivalently, the node's
remaining equals `fin (r + delta)` for returned leftover `r`. -/
theorem c8_parallel_contract :
    ∀ (ts : TList) (δ : ℚ) (w : World) (fuel : Nat) (ts2 : TList)
      (w2 : World) (r : ℚ),
      ts ≠ TList.nil → AllFinNonneg ts →
      updateT fuel (TNode.Parallel ts) δ w
        = some (TNode.Parallel ts2, w2, r) →
      (∀ t ∈ ts.toList, RTime.leR (remainingT t)
        (remainingT (TNode.Parallel ts))) ∧
      (∃ t ∈ ts.toList, remainingT t = remainingT (TNode.Parallel ts)) ∧
      List.Forall₂ (fun a b => ∃ f2 w1 wb rb,
        updateT f2 a ((remainingT a).minD δ) w1 = some (b, wb, rb))
        ts.toList ts2.toList ∧
      (∀ t ∈ ts.toList, ∀ q, remainingT t = RTime.fin q →
        (remainingT t).minD δ ≤ q) ∧
      remainingT (TNode.Parallel ts) = RTime.fin (r + δ) := by
  intro ts δ w fuel ts2 w2 r hne hnn h
  cases fuel with
  | zero => exact absurd h (by simp [updateT])
  | succ f =>
    simp only [updateT] at h
    cases hp : parGo f ts δ w (RTime.fin 0) with
    | none => rw [hp] at h; exact absurd h (by simp)
    | some p =>
      obtain ⟨ts3, w3, m3⟩ := p
      obtain ⟨hfa, hfm⟩ := parGo_spec ts f δ w (RTime.fin 0) (ts3, w3, m3) hp
      cases m3 with
      | inf => simp only [hp] at h; exact absurd h (by simp)
      | fin M =>
        simp only [hp, Option.some.injEq, Prod.mk.injEq,
          TNode.Parallel.injEq] at h
        obtain ⟨hts, hw, hr⟩ := h
        obtain ⟨M0, hM0, hM0nn⟩ := allFinNonneg_max ts hnn
        have hMM0 : M = M0 := by
          have h2 := hfm
          rw [foldMax_maxR ts (RTime.fin 0) hne, hM0] at h2
          simpa [RTime.maxR, max_eq_right hM0nn] using h2
        refine ⟨?_, ?_, ?_, ?_, ?_⟩
        · intro t ht
          simpa [remainingT] using maxRemaining_mem_le ts t ht
        · simpa [remainingT] using maxRemaining_mem_eq ts hne
        · rw [← hts]; exact hfa
        · intro t ht q hq
          rw [hq]
          simp [RTime.minD, min_le_left]
        · simp only [remainingT]
          rw [hM0, ← hMM0, ← hr]
          ring_nf

/-- Witness for claim C8: two pauses of durations `1` and `2` under a
`Parallel`, fed delta `3`: the returned leftover is `-1` and the node's
remaining `2 = -1 + 3`. -/
theorem c8_parallel_contract_witness :
    remainingT (TNode.Parallel (TList.cons (TNode.Pause 1 0)
      (TList.cons (TNode.Pause 2 0) TList.nil))) = RTime.fin (-1 + 3) :=
  (c8_parallel_contract _ 3 w0 5
    (TList.cons (TNode.Pause 1 1) (TList.cons (TNode.Pause 2 2) TList.nil))
    w0 (-1)
    (by intro hc; cases hc)
    (by
      simp only [AllFinNonneg]
      exact ⟨⟨1, by norm_num [remainingT], by norm_num⟩,
        ⟨2, by norm_num [remainingT], by norm_num⟩, trivial⟩)
    (by norm_num [updateT, parGo, remainingT, RTime.minD, RTime.ltR,
      min_def, w0])).2.2.2.2

/-- Claim C9: for every easing family in the catalog (linear, quadratic,
cubic, quartic, quintic, sinusoidal, circular, bounce, elastic, back),
`ease_in_out 0 = 0` and `ease_in_out 1 = 1`, exactly under real arithmetic
(elastic and back taken at the parameters their catalog constructors set:
both elastic parameters NaN-unset, back overshoot `1.70158`). -/
theorem c9_ease_in_out_boundary :
    LinearEase.ease_in_out 0 = 0 ∧ LinearEase.ease_in_out 1 = 1 ∧
    QuadEase.ease_in_out 0 = 0 ∧ QuadEase.ease_in_out 1 = 1 ∧
    CubicEase.ease_in_out 0 = 0 ∧ CubicEase.ease_in_out 1 = 1 ∧
    QuartEase.ease_in_out 0 = 0 ∧ QuartEase.ease_in_out 1 = 1 ∧
    QuintEase.ease_in_out 0 = 0 ∧ QuintEase.ease_in_out 1 = 1 ∧
    SineEase.ease_in_out 0 = 0 ∧ SineEase.ease_in_out 1 = 1 ∧
    CircEase.ease_in_out 0 = 0 ∧ CircEase.ease_in_out 1 = 1 ∧
    BounceEase.ease_in_out 0 = 0 ∧ BounceEase.ease_in_out 1 = 1 ∧
    ElasticEase.ease_in_out none none 0 = 0 ∧
    ElasticEase.ease_in_out none none 1 = 1 ∧
    BackEase.ease_in_out 1.70158 0 = 0 ∧ BackEase.ease_in_out 1.70158 1 = 1 := by
  refine ⟨rfl, rfl, ?_, ?_, ?_, ?_, ?_, ?_, ?_, ?_, ?_, ?_, ?_, ?_, ?_, ?_,
    ?_, ?_, ?_, ?_⟩
  · norm_num [QuadEase.ease_in_out]
  · norm_num [QuadEase.ease_in_out]
  · norm_num [CubicEase.ease_in_out]
  · norm_num [CubicEase.ease_in_out]
  · norm_num [QuartEase.ease_in_out]
  · norm_num [QuartEase.ease_in_out]
  · norm_num [QuintEase.ease_in_out]
  · norm_num [QuintEase.ease_in_out]
  · norm_num [SineEase.ease_in_out, Real.cos_zero]
  · norm_num [SineEase.ease_in_out, Real.cos_pi]
  · norm_num [CircEase.ease_in_out, Real.sqrt_one]
  · norm_num [CircEase.ease_in_out, Real.sqrt_one]
  · norm_num [BounceEase.ease_in_out, BounceEase.ease_in, BounceEase.ease_out]
  · norm_num [BounceEase.ease_in_out, BounceEase.ease_in, BounceEase.ease_out]
  · norm_num [ElasticEase.ease_in_out]
  · norm_num [ElasticEase.ease_in_out]
  · norm_num [BackEase.ease_in_out]
  · norm_num [BackEase.ease_in_out]

/-- Claim C10: `Reverse::update` never touches the `Reverse` node's own
`current` counter (it only feeds `-delta` to the child), so starting from
the construction state (`current = 0`, captured `duration`), any sequence of
terminating `update` calls leaves `remaining()` equal to the captured
duration, and when that duration is positive the node never reports
`done()`.  The second conjunct ties `current = 0` and the captured duration
to `Reverse::new`. -/
theorem c10_reverse_never_progresses :
    (∀ (fuel : Nat) (c : TNode) (d : ℚ) (δs : List ℚ) (w : World)
        (out : TNode × World),
        runDeltas fuel (TNode.Reverse c 0 d) δs w = some out →
        remainingT out.1 = RTime.fin d ∧ (0 < d → doneT out.1 = false)) ∧
    (∀ (fuel : Nat) (t : TNode) (w : World) (out : TNode × World),
        reverseNew fuel t w = some out →
        ∃ c2 rem, remainingT t = RTime.fin rem ∧
          out.1 = TNode.Reverse c2 0 rem) := by
  constructor
  · intro fuel c d δs
    induction δs generalizing c with
    | nil =>
      intro w out h
      simp only [runDeltas, Option.some.injEq] at h
      rw [← h]
      refine ⟨by simp [remainingT], fun hd => ?_⟩
      simp [doneT, remainingT, RTime.nonpos]
      linarith
    | cons δ δs ih =>
      intro w out h
      simp only [runDeltas] at h
      cases hu : updateT fuel (TNode.Reverse c 0 d) δ w with
      | none => rw [hu] at h; exact absurd h (by simp)
      | some p =>
        rw [hu] at h
        obtain ⟨c2, hc2⟩ :=
          updateT_reverse_shape fuel c 0 d δ w p hu
        rw [show p = (p.1, p.2.1, p.2.2) from rfl, hc2] at h
        exact ih c2 p.2.1 out h
  · intro fuel t w out h
    unfold reverseNew at h
    cases hr : remainingT t with
    | inf => rw [hr] at h; exact absurd h (by simp)
    | fin rem =>
      rw [hr] at h
      cases hu : updateT fuel t rem w with
      | none => simp only [hu] at h; exact absurd h (by simp)
      | some p =>
        obtain ⟨t2, w2, r⟩ := p
        simp only [hu, Option.some.injEq] at h
        exact ⟨t2, rem, rfl, by rw [← h]⟩

/-- Witness for claim C10: a `Reverse` of duration `1` around an
already-completed `Pause`, fed `0.5` twice, still reports remaining `1` and
is not done. -/
theorem c10_reverse_never_progresses_witness :
    remainingT (TNode.Reverse (TNode.Pause 1 0) 0 1) = RTime.fin 1 ∧
    doneT (TNode.Reverse (TNode.Pause 1 0) 0 1) = false := by
  have h := c10_reverse_never_progresses.1 9 (TNode.Pause 1 1) 1 [1/2, 1/2]
    w0 (TNode.Reverse (TNode.Pause 1 0) 0 1, w0)
    (by norm_num [runDeltas, updateT, w0, min_def])
  exact ⟨h.1, h.2 (by norm_num)⟩
